import Mathlib

/-!
Shallow embedding of dysl.h (memory-management substrate of the dysl
scripting runtime): allocator abstraction, intrusive tracked-object
lists (generation/root sets), and the symbol interning hash table.

Machine integers are modelled as Nat with explicit reduction mod 2^32
where the C code computes in uint32_t.  Byte sequences are List Nat
(each entry a byte value).  Pointers are modelled as Nat addresses;
pointer identity of a symbol is its `sid` field.
-/

set_option autoImplicit false

namespace Dysl

/- ## Utilities (src/dysl.h lines 339-367) -/

/-- FNV-1a hash (dHash_fnv1a, lines 340-348): 32-bit arithmetic modelled
as Nat reduced mod 2^32 after the multiply; the xor of a value below
2^32 with a byte stays below 2^32, matching uint32_t exactly. -/
def dHash_fnv1a (data : List Nat) : Nat :=
  data.foldl (fun hash b => Nat.xor hash b * 16777619 % 4294967296) 2166136261

/-- dHash_slice is a macro alias for dHash_fnv1a (line 349). -/
def dHash_slice (data : List Nat) : Nat := dHash_fnv1a data

/-- Byte-wise comparison loop of dSlice_equals (lines 362-365). -/
def bytes_equal : List Nat → List Nat → Bool
  | [], [] => true
  | x :: xs, y :: ys => x == y && bytes_equal xs ys
  | _, _ => false

/-- dSlice_equals (lines 352-367): false on length mismatch, else
byte-by-byte comparison. -/
def dSlice_equals (a b : List Nat) : Bool :=
  if a.length != b.length then false else bytes_equal a b

theorem bytes_equal_iff (a b : List Nat) :
    bytes_equal a b = true ↔ a = b := by
  induction a generalizing b with
  | nil => cases b <;> simp [bytes_equal]
  | cons x xs ih =>
    cases b with
    | nil => simp [bytes_equal]
    | cons y ys => simp [bytes_equal, ih]

theorem dSlice_equals_iff (a b : List Nat) :
    dSlice_equals a b = true ↔ a = b := by
  unfold dSlice_equals
  by_cases h : a.length = b.length
  · simp [h, bytes_equal_iff]
  · simp [h]
    intro hab
    exact absurd (congrArg List.length hab) h

/- ## Symbol table (src/dysl.h lines 203-209, 231-236, 403-538)

A dy_symbol owns its name bytes, their length (the length of the
name list), and the precomputed hash; `sid` models the symbol
object's address, i.e. its identity.  A bucket's `next_in_table`
chain is a Lean list; the table's bucket array is a list of chains. -/

structure dy_symbol where
  sid : Nat
  name : List Nat
  hash : Nat
deriving DecidableEq, Repr

structure dy_symbols where
  buckets : List (List dy_symbol)
  count : Nat
  capacity : Nat
deriving DecidableEq, Repr

def DYSL_SYMBOLS_INITIAL_CAPACITY : Nat := 64

/-- dSymbols_init (lines 405-418), successful-allocation path: a fresh
zeroed bucket array of the requested capacity. -/
def dSymbols_init (initial_capacity : Nat) : dy_symbols :=
  { buckets := List.replicate initial_capacity []
    count := 0
    capacity := initial_capacity }

/-- Match predicate of the dSymbols_lookup walk (lines 441-443):
stored hash, then stored length, then bytes, in that order. -/
def dSymbols_match (name : List Nat) (hash : Nat) (sym : dy_symbol) : Bool :=
  sym.hash == hash && sym.name.length == name.length && dSlice_equals sym.name name

/-- dSymbols_lookup (lines 429-450).  The C function returns the slot
where the symbol sits (or the null slot at the end of the chain) plus
a found flag; here the found case is `some sym` and the not-found
case (slot = end of the chain at index hash mod capacity) is `none`. -/
def dSymbols_lookup (s : dy_symbols) (name : List Nat) (hash : Nat) :
    Option dy_symbol :=
  (s.buckets.getD (hash % s.capacity) []).find? (dSymbols_match name hash)

/-- dSymbols_should_grow (lines 535-538).  The C threshold is
(size_t)(capacity * 0.75); 0.75 is exact in binary floating point, so
for every capacity this runtime reaches the truncated product equals
3 * capacity / 4 in Nat arithmetic. -/
def dSymbols_should_grow (s : dy_symbols) (desired_count : Nat) : Bool :=
  3 * s.capacity / 4 < desired_count

/-- The grow loop of dSymbols_ensure_capacity (lines 519-521): double
until capacity * 0.75 reaches the desired count.  The C loop never
runs with capacity 0 (capacities start at 64); the 0 guard only
serves Lean's termination checker. -/
def dSymbols_grow_capacity (desired : Nat) (cap : Nat) : Nat :=
  if cap = 0 then cap
  else if 3 * cap / 4 < desired then dSymbols_grow_capacity desired (2 * cap)
  else cap
termination_by 4 * desired - cap
decreasing_by
  rename_i h0 hlt
  have h3 : 3 * cap < desired * 4 := (Nat.div_lt_iff_lt_mul (by omega)).mp hlt
  omega

/-- The shrink loop of dSymbols_ensure_capacity (lines 527-530): halve
while above the minimum capacity and under a quarter load. -/
def dSymbols_shrink_capacity (desired : Nat) (nc : Nat) : Nat :=
  if h : DYSL_SYMBOLS_INITIAL_CAPACITY < nc ∧ desired < nc / 4 then
    dSymbols_shrink_capacity desired (nc / 2)
  else nc
termination_by nc
decreasing_by
  have : DYSL_SYMBOLS_INITIAL_CAPACITY < nc := h.1
  unfold DYSL_SYMBOLS_INITIAL_CAPACITY at this
  omega

/-- One step of the rehash loop of dSymbols_resize (lines 494-500):
push the symbol onto the front of its new home chain. -/
def dSymbols_rehash_insert (nb : List (List dy_symbol)) (sym : dy_symbol) :
    List (List dy_symbol) :=
  let idx := sym.hash % nb.length
  nb.set idx (sym :: nb.getD idx [])

/-- dSymbols_resize (lines 476-506).  `allocOk` models whether the
dAlloc_alloc of the new bucket array returns a block (true) or NULL
(false); on NULL the function returns with the table untouched
(lines 485-488).  Otherwise every symbol of every old bucket is
pushed onto its new chain and the table adopts the new array. -/
def dSymbols_resize (s : dy_symbols) (new_capacity : Nat) (allocOk : Bool) :
    dy_symbols :=
  if allocOk = false then s
  else
    { buckets :=
        s.buckets.foldl (fun nb chain => chain.foldl dSymbols_rehash_insert nb)
          (List.replicate new_capacity [])
      count := s.count
      capacity := new_capacity }

/-- dSymbols_ensure_capacity (lines 508-533). -/
def dSymbols_ensure_capacity (s : dy_symbols) (desired_count : Nat)
    (allocOk : Bool) : dy_symbols :=
  let cap := s.capacity
  let grow_threshold := 3 * cap / 4
  let shrink_threshold := cap / 4
  let new_capacity :=
    if grow_threshold < desired_count then
      dSymbols_grow_capacity desired_count cap
    else if desired_count < shrink_threshold ∧
        DYSL_SYMBOLS_INITIAL_CAPACITY < cap then
      dSymbols_shrink_capacity desired_count
        (max (cap / 2) DYSL_SYMBOLS_INITIAL_CAPACITY)
    else cap
  dSymbols_resize s new_capacity allocOk

/-- dSymbols_intern (lines 452-474) fused with the caller's placement
of the freshly created symbol into the returned slot (the documented
protocol, lines 256-263): on a hit the existing symbol is returned
and the table is unchanged; on a miss the table may grow (re-running
the lookup, whose empty slot is the end of the chain at the new
index), the count is bumped, and a symbol with address `fresh` is
appended at the end of its home chain. -/
def dSymbols_intern_place (s : dy_symbols) (name : List Nat) (hash : Nat)
    (fresh : Nat) (allocOk : Bool) : dy_symbols × dy_symbol :=
  match dSymbols_lookup s name hash with
  | some sym => (s, sym)
  | none =>
    let new_count := s.count + 1
    let s1 := if dSymbols_should_grow s new_count then
        dSymbols_ensure_capacity s new_count allocOk
      else s
    let s2 := { s1 with count := new_count }
    let sym : dy_symbol := { sid := fresh, name := name, hash := hash }
    let idx := hash % s2.capacity
    ({ s2 with
        buckets := s2.buckets.set idx (s2.buckets.getD idx [] ++ [sym]) },
     sym)

/-- Interning a byte sequence: the caller hashes the bytes with
dHash_slice and calls dSymbols_intern. -/
def internBytes (s : dy_symbols) (name : List Nat) (fresh : Nat) :
    dy_symbols × dy_symbol :=
  dSymbols_intern_place s name (dHash_slice name) fresh true

end Dysl

namespace Dysl

/- ## List helpers for bucket arrays -/

theorem getD_replicate {α : Type} (n i : Nat) (d : α) :
    (List.replicate n d).getD i d = d := by
  rw [List.getD_eq_getElem?_getD, List.getElem?_replicate]
  split <;> rfl

theorem getD_set_self {α : Type} (l : List α) (i : Nat) (a d : α)
    (h : i < l.length) : (l.set i a).getD i d = a := by
  induction l generalizing i with
  | nil => simp at h
  | cons x xs ih =>
    cases i with
    | zero => simp
    | succ j =>
      simp only [List.set_cons_succ, List.getD_cons_succ]
      exact ih j (by simpa using h)

theorem getD_set_ne {α : Type} (l : List α) (i j : Nat) (a d : α)
    (h : i ≠ j) : (l.set i a).getD j d = l.getD j d := by
  induction l generalizing i j with
  | nil => simp [List.set]
  | cons x xs ih =>
    cases i with
    | zero =>
      cases j with
      | zero => exact absurd rfl h
      | succ k => simp
    | succ i0 =>
      cases j with
      | zero => simp
      | succ k =>
        simp only [List.set_cons_succ, List.getD_cons_succ]
        exact ih i0 k (by omega)

/- ## Claim C1 development: interning deduplicates by content -/

theorem lookup_init (n : Nat) (name : List Nat) (hash : Nat) :
    dSymbols_lookup (dSymbols_init n) name hash = none := by
  simp [dSymbols_lookup, dSymbols_init, getD_replicate]

theorem intern_of_lookup_some (s : dy_symbols) (name : List Nat)
    (hash fresh : Nat) (allocOk : Bool) (sym : dy_symbol)
    (h : dSymbols_lookup s name hash = some sym) :
    dSymbols_intern_place s name hash fresh allocOk = (s, sym) := by
  simp [dSymbols_intern_place, h]

theorem intern_snd_of_lookup_none (s : dy_symbols) (name : List Nat)
    (hash fresh : Nat) (allocOk : Bool)
    (h : dSymbols_lookup s name hash = none) :
    (dSymbols_intern_place s name hash fresh allocOk).2
      = ⟨fresh, name, hash⟩ := by
  simp [dSymbols_intern_place, h]

/-- Interning a symbol the table does not yet hold, when the grow check
does not fire: the symbol is appended to the end of its home chain and
the count is bumped. -/
theorem intern_of_none_nogrow (s : dy_symbols) (name : List Nat)
    (hash fresh : Nat) (allocOk : Bool)
    (h : dSymbols_lookup s name hash = none)
    (hg : dSymbols_should_grow s (s.count + 1) = false) :
    dSymbols_intern_place s name hash fresh allocOk =
      ({ buckets := s.buckets.set (hash % s.capacity)
            (s.buckets.getD (hash % s.capacity) [] ++ [⟨fresh, name, hash⟩])
         count := s.count + 1
         capacity := s.capacity },
       ⟨fresh, name, hash⟩) := by
  simp [dSymbols_intern_place, h, hg]

/-- The table state after interning a single byte sequence A into a fresh
table of capacity 64. -/
def oneSymTable (A : List Nat) (f : Nat) : dy_symbols :=
  { buckets := (List.replicate 64 []).set (dHash_slice A % 64)
      [⟨f, A, dHash_slice A⟩]
    count := 1
    capacity := 64 }

theorem intern_init_64 (A : List Nat) (f : Nat) :
    internBytes (dSymbols_init 64) A f
      = (oneSymTable A f, ⟨f, A, dHash_slice A⟩) := by
  rw [internBytes,
    intern_of_none_nogrow _ _ _ _ _ (lookup_init 64 A (dHash_slice A))
      (by decide)]
  rw [Prod.mk.injEq]
  refine ⟨?_, rfl⟩
  rw [dy_symbols.mk.injEq]
  refine ⟨?_, rfl, rfl⟩
  simp only [dSymbols_init, oneSymTable]
  rw [getD_replicate]
  rfl

theorem lookup_oneSym (A : List Nat) (f : Nat) (B : List Nat) (q : Nat) :
    dSymbols_lookup (oneSymTable A f) B q
      = if dSymbols_match B q ⟨f, A, dHash_slice A⟩
          then some ⟨f, A, dHash_slice A⟩ else none := by
  by_cases hidx : q % 64 = dHash_slice A % 64
  · show ((oneSymTable A f).buckets.getD (q % 64) []).find? _ = _
    rw [oneSymTable, hidx]
    rw [getD_set_self _ _ _ _ (by rw [List.length_replicate]; omega)]
    cases h : dSymbols_match B q ⟨f, A, dHash_slice A⟩ <;>
      simp [List.find?, h]
  · have hq : (dHash_slice A == q) = false := by
      simp only [beq_eq_false_iff_ne, ne_eq]
      intro h
      exact hidx (by rw [h])
    show ((oneSymTable A f).buckets.getD (q % 64) []).find? _ = _
    rw [oneSymTable]
    rw [getD_set_ne _ _ _ _ _ (fun h => hidx h.symm), getD_replicate]
    simp [dSymbols_match, hq]

/-- Claim C1: interning is a deduplicating identity map.  Starting from a
fresh capacity-64 table, interning A twice (the caller placing the
created symbol into the returned slot) yields the identical symbol both
times, whatever fresh addresses are offered; and interning A then B
yields the same symbol identity iff A and B have equal length and equal
bytes — hash collisions with differing content are never merged, since
the lookup re-checks length and bytes after the hash comparison. -/
theorem interning_is_deduplicating_identity (A B : List Nat) (f1 f2 : Nat) :
    (internBytes (internBytes (dSymbols_init 64) A f1).1 A f2).2
        = (internBytes (dSymbols_init 64) A f1).2
    ∧ ((internBytes (internBytes (dSymbols_init 64) A f1).1 B f2).2
          = (internBytes (dSymbols_init 64) A f1).2
        ↔ B.length = A.length ∧ B = A) := by
  rw [intern_init_64]
  constructor
  · have hmatch : dSymbols_match A (dHash_slice A) ⟨f1, A, dHash_slice A⟩ = true := by
      simp [dSymbols_match, dSlice_equals_iff]
    have hl : dSymbols_lookup (oneSymTable A f1) A (dHash_slice A)
        = some ⟨f1, A, dHash_slice A⟩ := by
      rw [lookup_oneSym, if_pos hmatch]
    simp [internBytes, intern_of_lookup_some _ _ _ f2 true _ hl]
  · by_cases hBA : B = A
    · subst hBA
      have hmatch : dSymbols_match B (dHash_slice B) ⟨f1, B, dHash_slice B⟩ = true := by
        simp [dSymbols_match, dSlice_equals_iff]
      have hl : dSymbols_lookup (oneSymTable B f1) B (dHash_slice B)
          = some ⟨f1, B, dHash_slice B⟩ := by
        rw [lookup_oneSym, if_pos hmatch]
      simp [internBytes, intern_of_lookup_some _ _ _ f2 true _ hl]
    · have hmatch : dSymbols_match B (dHash_slice B) ⟨f1, A, dHash_slice A⟩ = false := by
        by_contra h
        have h1 : dSymbols_match B (dHash_slice B) ⟨f1, A, dHash_slice A⟩ = true := by
          revert h
          cases dSymbols_match B (dHash_slice B) ⟨f1, A, dHash_slice A⟩ <;> simp
        simp only [dSymbols_match, Bool.and_eq_true, beq_iff_eq] at h1
        exact hBA ((dSlice_equals_iff A B).mp h1.2).symm
      have hl : dSymbols_lookup (oneSymTable A f1) B (dHash_slice B) = none := by
        rw [lookup_oneSym, if_neg (by simp [hmatch])]
      have h2 := intern_snd_of_lookup_none (oneSymTable A f1) B (dHash_slice B) f2 true hl
      simp only [internBytes, h2]
      constructor
      · intro h
        have hname : B = A := congrArg dy_symbol.name h
        exact absurd hname hBA
      · intro h
        exact absurd h.2 hBA

end Dysl

namespace Dysl

/- ## Claim C6: resize is fail-soft on allocation failure -/

/-- Claim C6: if the allocation of the new bucket array inside
dSymbols_resize fails (allocOk = false, i.e. dAlloc_alloc returned
NULL), the resize is abandoned and the table is left completely
unchanged — same bucket array, same capacity, same count — and every
lookup behaves exactly as before, so the table keeps operating at its
old capacity. -/
theorem resize_allocation_failure_leaves_table_unchanged
    (s : dy_symbols) (new_capacity : Nat) :
    dSymbols_resize s new_capacity false = s
    ∧ ∀ (name : List Nat) (hash : Nat),
        dSymbols_lookup (dSymbols_resize s new_capacity false) name hash
          = dSymbols_lookup s name hash :=
  ⟨rfl, fun _ _ => rfl⟩

/- ## Flatten / bucket membership helpers -/

/-- All symbols stored in the table, obtained by walking every bucket
chain (the order the rehash loop of dSymbols_resize visits them). -/
def allSyms (s : dy_symbols) : List dy_symbol := s.buckets.flatten

theorem mem_getD_flatten {α : Type} (l : List (List α)) (i : Nat) (x : α)
    (h : x ∈ l.getD i []) : x ∈ l.flatten := by
  by_cases hi : i < l.length
  · rw [List.getD_eq_getElem l [] hi] at h
    exact List.mem_flatten.mpr ⟨l[i], List.getElem_mem hi, h⟩
  · rw [List.getD_eq_default l [] (by omega)] at h
    exact absurd h (List.not_mem_nil x)

theorem mem_flatten_set_append {α : Type} (l : List (List α)) (i : Nat)
    (a x : α) (h : x ∈ (l.set i (l.getD i [] ++ [a])).flatten) :
    x ∈ l.flatten ∨ x = a := by
  induction l generalizing i with
  | nil => simp [List.set] at h
  | cons c t ih =>
    cases i with
    | zero =>
      simp only [List.set_cons_zero, List.getD_cons_zero, List.flatten_cons,
        List.mem_append, List.mem_singleton] at h
      rcases h with (h | h) | h
      · left
        rw [List.flatten_cons]
        exact List.mem_append.mpr (Or.inl h)
      · exact Or.inr h
      · left
        rw [List.flatten_cons]
        exact List.mem_append.mpr (Or.inr h)
    | succ j =>
      simp only [List.set_cons_succ, List.getD_cons_succ, List.flatten_cons,
        List.mem_append] at h
      rcases h with h | h
      · left
        rw [List.flatten_cons]
        exact List.mem_append.mpr (Or.inl h)
      · rcases ih j h with h2 | h2
        · left
          rw [List.flatten_cons]
          exact List.mem_append.mpr (Or.inr h2)
        · exact Or.inr h2

theorem flatten_replicate_nil {α : Type} (n : Nat) :
    (List.replicate n ([] : List α)).flatten = [] := by
  induction n with
  | zero => rfl
  | succ m ih => simp [List.replicate_succ, ih]

theorem allSyms_init (n : Nat) : allSyms (dSymbols_init n) = [] := by
  simp [allSyms, dSymbols_init, flatten_replicate_nil]

/-- A name not yet present in the table is never found: the lookup walk
accepts a symbol only after the byte comparison succeeds, so a match
would mean the name is already stored. -/
theorem lookup_none_of_fresh (s : dy_symbols) (nm : List Nat) (q : Nat)
    (done : List (List Nat))
    (hsub : ∀ sym ∈ allSyms s, sym.name ∈ done) (hnm : nm ∉ done) :
    dSymbols_lookup s nm q = none := by
  cases hfind : dSymbols_lookup s nm q with
  | none => rfl
  | some sym =>
    have hmem : sym ∈ s.buckets.getD (q % s.capacity) [] :=
      List.mem_of_find?_eq_some hfind
    have hp : dSymbols_match nm q sym = true := List.find?_some hfind
    simp only [dSymbols_match, Bool.and_eq_true, beq_iff_eq] at hp
    have hname : sym.name = nm := (dSlice_equals_iff _ _).mp hp.2
    have hall : sym ∈ allSyms s := mem_getD_flatten _ _ _ hmem
    exact absurd (hname ▸ hsub sym hall) hnm

/- ## Claim C7 development: the grow policy fires at the 49th symbol -/

/-- Interning a sequence of byte strings one after another, the caller
handing out consecutive fresh addresses starting at f0. -/
def internFold (s : dy_symbols) (f0 : Nat) (ns : List (List Nat)) :
    dy_symbols × Nat :=
  ns.foldl (fun acc nm => ((internBytes acc.1 nm acc.2).1, acc.2 + 1)) (s, f0)

def internAll (s : dy_symbols) (ns : List (List Nat)) : dy_symbols :=
  (internFold s 0 ns).1

/-- Invariant after interning the byte sequences in `done` into a fresh
capacity-64 table, while the grow policy has not yet fired. -/
def C7Inv (done : List (List Nat)) (s : dy_symbols) : Prop :=
  s.capacity = 64 ∧ s.count = done.length
    ∧ ∀ sym ∈ allSyms s, sym.name ∈ done

theorem c7_fold (ns : List (List Nat)) :
    ∀ (s : dy_symbols) (f0 : Nat) (done : List (List Nat)),
      C7Inv done s → (∀ x ∈ ns, x ∉ done) → ns.Nodup →
      done.length + ns.length ≤ 48 →
      C7Inv (ns.reverse ++ done) (internFold s f0 ns).1 := by
  induction ns with
  | nil =>
    intro s f0 done hinv _ _ _
    simpa [internFold] using hinv
  | cons x t ih =>
    intro s f0 done hinv hfreshall hnodup hbound
    obtain ⟨hcap, hcount, hsub⟩ := hinv
    have hlookup : dSymbols_lookup s x (dHash_slice x) = none :=
      lookup_none_of_fresh s x (dHash_slice x) done hsub
        (hfreshall x (List.mem_cons_self x t))
    have hg : dSymbols_should_grow s (s.count + 1) = false := by
      simp only [dSymbols_should_grow, hcap, hcount]
      simp only [List.length_cons] at hbound
      simp only [decide_eq_false_iff_not, not_lt]
      omega
    have hstep := intern_of_none_nogrow s x (dHash_slice x) f0 true hlookup hg
    have hrec := ih (internBytes s x f0).1 (f0 + 1) (x :: done)
      (by
        refine ⟨?_, ?_, ?_⟩
        · rw [internBytes, hstep]
          exact hcap
        · rw [internBytes, hstep]
          simp [hcount]
        · intro sym hsym
          rw [internBytes, hstep] at hsym
          simp only [allSyms] at hsym
          rcases mem_flatten_set_append _ _ _ _ hsym with h | h
          · exact List.mem_cons_of_mem x (hsub sym h)
          · rw [h]
            exact List.mem_cons_self x done)
      (by
        intro y hy
        simp only [List.mem_cons, not_or]
        refine ⟨?_, ?_⟩
        · intro hyx
          rw [hyx] at hy
          exact (List.nodup_cons.mp hnodup).1 hy
        · exact hfreshall y (List.mem_cons_of_mem x hy))
      (List.nodup_cons.mp hnodup).2
      (by simp at hbound ⊢; omega)
    have hfold : internFold s f0 (x :: t)
        = internFold (internBytes s x f0).1 (f0 + 1) t := by
      simp [internFold]
    rw [hfold]
    have hperm : (x :: t).reverse ++ done = t.reverse ++ (x :: done) := by
      simp
    rw [hperm]
    exact hrec

theorem resize_capacity (s : dy_symbols) (c : Nat) :
    (dSymbols_resize s c true).capacity = c := by
  simp [dSymbols_resize]

theorem intern_fst_capacity_grow (s : dy_symbols) (nm : List Nat)
    (hash f : Nat) (h : dSymbols_lookup s nm hash = none)
    (hg : dSymbols_should_grow s (s.count + 1) = true) :
    (dSymbols_intern_place s nm hash f true).1.capacity
      = (dSymbols_ensure_capacity s (s.count + 1) true).capacity := by
  simp [dSymbols_intern_place, h, hg]

theorem ensure_capacity_49_of_64 (s : dy_symbols) (hcap : s.capacity = 64) :
    (dSymbols_ensure_capacity s 49 true).capacity = 128 := by
  simp only [dSymbols_ensure_capacity, hcap, resize_capacity]
  norm_num
  rw [dSymbols_grow_capacity]
  norm_num
  rw [dSymbols_grow_capacity]
  norm_num

end Dysl

namespace Dysl

/-- Claim C7: starting from a table of capacity 64 with load factor
0.75, interning 50 distinct 4-byte symbols one after another (the
caller placing each created symbol into its returned slot) leaves the
table with capacity at least 128 by the time the 49th distinct symbol
has been interned, because the should-grow test fires when the
prospective count exceeds capacity times the load factor
(49 > 64 * 0.75 = 48). -/
theorem grow_policy_scenario (names : List (List Nat))
    (hlen : names.length = 50) (hnodup : names.Nodup)
    (_hbytes : ∀ nm ∈ names, nm.length = 4) :
    128 ≤ (internAll (dSymbols_init 64) (names.take 49)).capacity := by
  have h48lt : 48 < names.length := by omega
  have htake : names.take 49 = names.take 48 ++ [names[48]] := by
    rw [List.take_succ, List.getElem?_eq_getElem h48lt]
    rfl
  have hFlen : (names.take 48).length = 48 := by
    rw [List.length_take]
    omega
  have hFnodup : (names.take 48).Nodup :=
    (List.take_sublist 48 names).nodup hnodup
  have hfold := c7_fold (names.take 48) (dSymbols_init 64) 0 []
    ⟨rfl, rfl, by
      rw [allSyms_init]
      intro sym hsym
      exact absurd hsym (List.not_mem_nil sym)⟩
    (fun x _ => List.not_mem_nil x)
    hFnodup
    (by simp [hFlen])
  obtain ⟨hcapT, hcountT, hsubT⟩ := hfold
  have hgmem : names[48] ∈ names.drop 48 := by
    rw [List.drop_eq_getElem_cons h48lt]
    exact List.mem_cons_self _ _
  have hgnot : names[48] ∉ (names.take 48).reverse ++ [] := by
    simp only [List.append_nil, List.mem_reverse]
    intro hmem
    have hdisj : (names.take 48).Disjoint (names.drop 48) := by
      have := List.take_append_drop 48 names
      exact (List.nodup_append.mp (by rw [this]; exact hnodup)).2.2
    exact hdisj hmem hgmem
  have hcount48 : (internFold (dSymbols_init 64) 0 (names.take 48)).1.count
      = 48 := by
    rw [hcountT]
    simp [hFlen]
  rw [internAll, internFold, htake, List.foldl_append, List.foldl_cons,
    List.foldl_nil]
  have hlookup := lookup_none_of_fresh
    (internFold (dSymbols_init 64) 0 (names.take 48)).1 names[48]
    (dHash_slice names[48]) ((names.take 48).reverse ++ []) hsubT hgnot
  have hsg : dSymbols_should_grow
      (internFold (dSymbols_init 64) 0 (names.take 48)).1
      ((internFold (dSymbols_init 64) 0 (names.take 48)).1.count + 1)
      = true := by
    simp [dSymbols_should_grow, hcapT, hcount48]
  show 128 ≤ (internBytes (internFold (dSymbols_init 64) 0
      (names.take 48)).1 names[48]
      (internFold (dSymbols_init 64) 0 (names.take 48)).2).1.capacity
  rw [internBytes, intern_fst_capacity_grow _ _ _ _ hlookup hsg, hcount48]
  rw [ensure_capacity_49_of_64 _ hcapT]

/-- Fifty pairwise-distinct 4-byte names for the C7 scenario. -/
def c7names : List (List Nat) := (List.range 50).map (fun i => [i, 1, 2, 3])

theorem grow_policy_scenario_witness :
    128 ≤ (internAll (dSymbols_init 64) (c7names.take 49)).capacity :=
  grow_policy_scenario c7names (by decide) (by decide) (by decide)

end Dysl

namespace Dysl

/- ## Claim C4 development: resize preserves symbol-set membership -/

theorem length_rehash_insert (nb : List (List dy_symbol)) (sym : dy_symbol) :
    (dSymbols_rehash_insert nb sym).length = nb.length := by
  simp [dSymbols_rehash_insert]

theorem flatten_set_cons_perm {α : Type} (l : List (List α)) (i : Nat)
    (a : α) (h : i < l.length) :
    ((l.set i (a :: l.getD i [])).flatten).Perm (a :: l.flatten) := by
  induction l generalizing i with
  | nil => simp at h
  | cons c t ih =>
    cases i with
    | zero =>
      simp only [List.set_cons_zero, List.getD_cons_zero, List.flatten_cons,
        List.cons_append]
      exact List.Perm.refl _
    | succ j =>
      simp only [List.set_cons_succ, List.getD_cons_succ, List.flatten_cons]
      have hj : j < t.length := by simpa using h
      exact ((ih j hj).append_left c).trans List.perm_middle

theorem rehash_insert_flatten_perm (nb : List (List dy_symbol))
    (sym : dy_symbol) (h : 0 < nb.length) :
    ((dSymbols_rehash_insert nb sym).flatten).Perm (sym :: nb.flatten) :=
  flatten_set_cons_perm nb (sym.hash % nb.length) sym (Nat.mod_lt _ h)

theorem foldl_rehash_flatten_perm (l : List dy_symbol) :
    ∀ (nb : List (List dy_symbol)), 0 < nb.length →
      ((l.foldl dSymbols_rehash_insert nb).flatten).Perm (l ++ nb.flatten) := by
  induction l with
  | nil => intro nb _; simp
  | cons x t ih =>
    intro nb hnb
    have hlen : 0 < (dSymbols_rehash_insert nb x).length := by
      rw [length_rehash_insert]; exact hnb
    show ((t.foldl dSymbols_rehash_insert
        (dSymbols_rehash_insert nb x)).flatten).Perm (x :: (t ++ nb.flatten))
    exact ((ih _ hlen).trans
      ((rehash_insert_flatten_perm nb x hnb).append_left t)).trans
      List.perm_middle

theorem buckets_fold_eq (bs : List (List dy_symbol)) :
    ∀ nb : List (List dy_symbol),
      bs.foldl (fun acc chain => chain.foldl dSymbols_rehash_insert acc) nb
        = bs.flatten.foldl dSymbols_rehash_insert nb := by
  induction bs with
  | nil => intro nb; rfl
  | cons c t ih =>
    intro nb
    simp only [List.foldl_cons, List.flatten_cons, List.foldl_append]
    exact ih _

theorem resize_true_buckets (s : dy_symbols) (c : Nat) :
    (dSymbols_resize s c true).buckets
      = s.buckets.flatten.foldl dSymbols_rehash_insert
          (List.replicate c []) := by
  simp [dSymbols_resize, buckets_fold_eq]

theorem resize_count (s : dy_symbols) (c : Nat) :
    (dSymbols_resize s c true).count = s.count := by
  simp [dSymbols_resize]

theorem allSyms_resize_perm (s : dy_symbols) (c : Nat) (hc : 0 < c) :
    (allSyms (dSymbols_resize s c true)).Perm (allSyms s) := by
  rw [allSyms, resize_true_buckets]
  have h := foldl_rehash_flatten_perm s.buckets.flatten
    (List.replicate c []) (by simpa using hc)
  rw [flatten_replicate_nil, List.append_nil] at h
  exact h

/-- After the rehash loop, every symbol sits in the chain selected by
its own hash mod the new capacity. -/
def HomeOk (c : Nat) (nb : List (List dy_symbol)) : Prop :=
  nb.length = c ∧ ∀ x ∈ nb.flatten, x ∈ nb.getD (x.hash % c) []

theorem homeok_insert (c : Nat) (nb : List (List dy_symbol))
    (sym : dy_symbol) (h : HomeOk c nb) (hc : 0 < c) :
    HomeOk c (dSymbols_rehash_insert nb sym) := by
  obtain ⟨hlen, hhome⟩ := h
  have hlt : sym.hash % c < nb.length := by
    rw [hlen]; exact Nat.mod_lt _ hc
  constructor
  · rw [length_rehash_insert, hlen]
  · intro x hx
    have hx2 : x ∈ sym :: nb.flatten :=
      (rehash_insert_flatten_perm nb sym (by omega)).mem_iff.mp hx
    simp only [dSymbols_rehash_insert, hlen]
    rcases List.mem_cons.mp hx2 with hxs | hxm
    · subst hxs
      rw [getD_set_self _ _ _ _ hlt]
      exact List.mem_cons_self _ _
    · by_cases hsame : x.hash % c = sym.hash % c
      · rw [hsame, getD_set_self _ _ _ _ hlt]
        exact List.mem_cons_of_mem _ (hsame ▸ hhome x hxm)
      · rw [getD_set_ne _ _ _ _ _ (fun hEq => hsame hEq.symm)]
        exact hhome x hxm

theorem homeok_foldl (c : Nat) (l : List dy_symbol) :
    ∀ (nb : List (List dy_symbol)), HomeOk c nb → 0 < c →
      HomeOk c (l.foldl dSymbols_rehash_insert nb) := by
  induction l with
  | nil => intro nb h _; exact h
  | cons x t ih =>
    intro nb h hc
    exact ih _ (homeok_insert c nb x h hc) hc

theorem homeok_replicate (c : Nat) :
    HomeOk c (List.replicate c ([] : List dy_symbol)) := by
  constructor
  · simp
  · rw [flatten_replicate_nil]
    intro x hx
    exact absurd hx (List.not_mem_nil x)

theorem find?_eq_some_of_unique {α : Type} (p : α → Bool) (l : List α)
    (a : α) (hm : a ∈ l) (hp : p a = true)
    (hu : ∀ y ∈ l, p y = true → y = a) : l.find? p = some a := by
  induction l with
  | nil => exact absurd hm (List.not_mem_nil a)
  | cons b t ih =>
    by_cases hb : p b = true
    · rw [List.find?_cons_of_pos _ hb, hu b (List.mem_cons_self b t) hb]
    · rw [List.find?_cons_of_neg _ (by simpa using hb)]
      have hab : a ≠ b := fun hEq => hb (hEq ▸ hp)
      exact ih (List.mem_cons.mp hm |>.resolve_left hab)
        (fun y hy hpy => hu y (List.mem_cons_of_mem b hy) hpy)

end Dysl

namespace Dysl

/-- Claim C4: resizing preserves symbol-set membership.  For every
table whose stored symbols carry pairwise distinct names and every
positive new capacity, after a successful dSymbols_resize (grow or
shrink) the stored symbols are exactly a permutation of the old ones
(none lost, none duplicated), the count is unchanged, and every
symbol that a lookup found before the resize is found by the same
lookup (same name, length and hash) afterwards, yielding the same
symbol object. -/
theorem resize_preserves_symbol_membership (s : dy_symbols) (c : Nat)
    (hc : 0 < c)
    (hnames : (allSyms s).Pairwise (fun a b => a.name ≠ b.name)) :
    (allSyms (dSymbols_resize s c true)).Perm (allSyms s)
    ∧ (dSymbols_resize s c true).count = s.count
    ∧ ∀ (name : List Nat) (q : Nat) (sym : dy_symbol),
        dSymbols_lookup s name q = some sym →
        dSymbols_lookup (dSymbols_resize s c true) name q = some sym := by
  refine ⟨allSyms_resize_perm s c hc, resize_count s c, ?_⟩
  intro name q sym hfind
  have hmem_bucket : sym ∈ s.buckets.getD (q % s.capacity) [] :=
    List.mem_of_find?_eq_some hfind
  have hp : dSymbols_match name q sym = true := List.find?_some hfind
  have hp2 := hp
  simp only [dSymbols_match, Bool.and_eq_true, beq_iff_eq] at hp2
  have hhash : sym.hash = q := hp2.1.1
  have hname : sym.name = name := (dSlice_equals_iff _ _).mp hp2.2
  have hmem_all : sym ∈ allSyms s := mem_getD_flatten _ _ _ hmem_bucket
  have hhome : HomeOk c (dSymbols_resize s c true).buckets := by
    rw [resize_true_buckets]
    exact homeok_foldl c s.buckets.flatten _ (homeok_replicate c) hc
  have hperm := allSyms_resize_perm s c hc
  have hmem_new : sym ∈ (dSymbols_resize s c true).buckets.flatten :=
    hperm.mem_iff.mpr hmem_all
  have hmem_chain : sym ∈ (dSymbols_resize s c true).buckets.getD
      (sym.hash % c) [] := hhome.2 sym hmem_new
  have huniq : ∀ y ∈ (dSymbols_resize s c true).buckets.getD (q % c) [],
      dSymbols_match name q y = true → y = sym := by
    intro y hy hpy
    have hy_all : y ∈ allSyms s :=
      hperm.mem_iff.mp (mem_getD_flatten _ _ _ hy)
    simp only [dSymbols_match, Bool.and_eq_true, beq_iff_eq] at hpy
    have hyname : y.name = name := (dSlice_equals_iff _ _).mp hpy.2
    by_contra hne
    have hsymm : Symmetric (fun a b : dy_symbol => a.name ≠ b.name) := by
      intro a b hab hEq
      exact hab hEq.symm
    exact (hnames.forall hsymm hy_all hmem_all hne) (hyname.trans hname.symm)
  show ((dSymbols_resize s c true).buckets.getD
      (q % (dSymbols_resize s c true).capacity) []).find?
      (dSymbols_match name q) = some sym
  rw [resize_capacity]
  exact find?_eq_some_of_unique _ _ sym (by rw [← hhash]; exact hmem_chain)
    hp huniq

/-- A concrete one-symbol table at capacity 4 used to witness C4. -/
def c4WitnessTable : dy_symbols :=
  { buckets := [[⟨7, [1], 0⟩], [], [], []], count := 1, capacity := 4 }

theorem resize_preserves_symbol_membership_witness :
    dSymbols_lookup (dSymbols_resize c4WitnessTable 2 true) [1] 0
      = some ⟨7, [1], 0⟩ :=
  (resize_preserves_symbol_membership c4WitnessTable 2 (by decide)
    (by simp [allSyms, c4WitnessTable])).2.2 [1] 0 ⟨7, [1], 0⟩ (by decide)

end Dysl

namespace Dysl

/- ## Allocator API (src/dysl.h lines 115-124, 369-383)

The C allocator is a user-supplied realloc-style function.  The model
keeps, alongside the policy deciding whether each successive
allocation request succeeds, the bookkeeping needed to state leak
freedom: the number of allocation calls made so far, the next fresh
address to hand out, and the list of currently live (allocated and
not yet freed) addresses. -/

structure dysl_allocator where
  ok : Nat → Bool
  calls : Nat
  next : Nat
  live : List Nat

/-- dAlloc_alloc (lines 370-372): a fresh block or NULL, by policy. -/
def dAlloc_alloc (a : dysl_allocator) (_size : Nat) :
    Option Nat × dysl_allocator :=
  if a.ok a.calls then
    (some a.next,
     { a with calls := a.calls + 1, next := a.next + 1,
              live := a.next :: a.live })
  else
    (none, { a with calls := a.calls + 1 })

/-- dAlloc_free (lines 373-375). -/
def dAlloc_free (a : dysl_allocator) (p : Nat) : dysl_allocator :=
  { a with live := a.live.erase p }

/- ## Claim C3: dysl_new construction (src/dysl.h lines 577-589)

dysl_new makes three allocations: the dysl struct, the dy_global
struct, and — inside dGlobal_init → dSymbols_init (lines 405-418,
571-574) — the symbol table's initial bucket array.  The C code
checks the first two and frees what was built so far, but
dSymbols_init never checks its allocation: on NULL it proceeds to
write the bucket entries through the null pointer (undefined
behavior, line 417) and dysl_new still returns the non-null handle
with nothing released.  The model records the three allocation calls
and the absence of the third check; the null write itself has no
counterpart in the model beyond that missing branch. -/
def dysl_new (a : dysl_allocator) : Option Nat × dysl_allocator :=
  match dAlloc_alloc a 8 with
  | (none, a1) => (none, a1)
  | (some D, a1) =>
    match dAlloc_alloc a1 40 with
    | (none, a2) => (none, dAlloc_free a2 D)
    | (some _G, a2) =>
      match dAlloc_alloc a2 (8 * 64) with
      | (_, a3) => (some D, a3)

/-- An allocator whose first two allocation requests succeed and whose
third (the 512-byte initial bucket array) fails. -/
def c3FailingAllocator : dysl_allocator :=
  { ok := fun n => n < 2, calls := 0, next := 0, live := [] }

/-- Claim C3 (code bug): construction is not all-or-nothing.  With an
allocator failing exactly the third nested allocation (the symbol
table's initial bucket array), dysl_new still returns a present
handle (address 0) and leaves both earlier allocations (the dysl
struct at 0 and the dy_global struct at 1) live, releasing nothing —
the C code additionally writes the bucket entries through the null
pointer.  The claim requires an absent result with every allocation
of the call released. -/
theorem dysl_new_not_atomic_on_bucket_failure :
    (dysl_new c3FailingAllocator).1 = some 0
    ∧ (dysl_new c3FailingAllocator).2.live = [1, 0] :=
  ⟨rfl, rfl⟩

end Dysl

namespace Dysl

/- ## Tracked objects and intrusive circular lists
(src/dysl.h lines 194-228, 385-401, 540-568)

Objects live in a heap modelled as a total map from addresses (Nat)
to object headers.  The dy_gc struct embeds its two sentinel objects,
root and gen; they are modelled at the fixed distinct addresses 0 and
1, with every allocated object elsewhere. -/

structure dy_object where
  tag : Nat
  previous : Nat
  next : Nat
deriving DecidableEq, Repr

def Heap : Type := Nat → dy_object

def updHeap (h : Heap) (a : Nat) (o : dy_object) : Heap :=
  fun x => if x = a then o else h x

def updNext (h : Heap) (a v : Nat) : Heap := updHeap h a { h a with next := v }

def updPrev (h : Heap) (a v : Nat) : Heap :=
  updHeap h a { h a with previous := v }

def updTag (h : Heap) (a v : Nat) : Heap := updHeap h a { h a with tag := v }

/-- dObj_close (lines 386-388): obj.previous = obj.next = obj. -/
def dObj_close (h : Heap) (obj : Nat) : Heap :=
  updPrev (updNext h obj obj) obj obj

/-- dObj_unlink (lines 390-394), with the two neighbor writes performed
in program order (each read happening against the heap produced by
the previous write) followed by dObj_close. -/
def dObj_unlink (h : Heap) (obj : Nat) : Heap :=
  let h1 := updNext h (h obj).previous (h obj).next
  let h2 := updPrev h1 (h1 obj).next (h1 obj).previous
  dObj_close h2 obj

/-- dObj_link (lines 396-401), the four writes in program order. -/
def dObj_link (h : Heap) (obj list : Nat) : Heap :=
  let h1 := updNext h obj (h list).next
  let h2 := updPrev h1 obj list
  let h3 := updPrev h2 (h2 list).next obj
  updNext h3 list obj

/-- Address of the dy_gc root sentinel. -/
def rootA : Nat := 0

/-- Address of the dy_gc gen sentinel. -/
def genA : Nat := 1

/-- dGC_init (lines 541-545): both sentinels closed. -/
def dGC_init (h : Heap) : Heap := dObj_close (dObj_close h rootA) genA

/-- dGC_track (lines 547-549). -/
def dGC_track (h : Heap) (obj : Nat) : Heap := dObj_link h obj genA

/-- dGC_root (lines 551-553): note the C code links without unlinking
first. -/
def dGC_root (h : Heap) (obj : Nat) : Heap := dObj_link h obj rootA

/-- dGC_unroot (lines 555-557). -/
def dGC_unroot (h : Heap) (obj : Nat) : Heap := dObj_unlink h obj

/-- The garbage collector: its heap of tracked objects plus the owning
allocator (struct dy_gc, lines 219-222). -/
structure dy_gc where
  heap : Heap
  alloc : dysl_allocator

/-- dGC_create (lines 559-568): allocate, stamp the tag, link into the
generation set; NULL propagates with no list mutation.  The freshly
allocated object's link fields are deliberately not initialized
(line 565, dObj_close commented out as unnecessary). -/
def dGC_create (gc : dy_gc) (size : Nat) (tag : Nat) : Option Nat × dy_gc :=
  match dAlloc_alloc gc.alloc size with
  | (none, a2) => (none, { gc with alloc := a2 })
  | (some obj, a2) =>
    let h1 := updTag gc.heap obj tag
    let h2 := dGC_track h1 obj
    (some obj, { heap := h2, alloc := a2 })

/-- The hypothetical variant of dGC_create that closes the new object
before linking it (the commented-out dObj_close of line 565). -/
def dGC_create_with_close (gc : dy_gc) (size : Nat) (tag : Nat) :
    Option Nat × dy_gc :=
  match dAlloc_alloc gc.alloc size with
  | (none, a2) => (none, { gc with alloc := a2 })
  | (some obj, a2) =>
    let h1 := updTag gc.heap obj tag
    let h1c := dObj_close h1 obj
    let h2 := dGC_track h1c obj
    (some obj, { heap := h2, alloc := a2 })

/- ## Circular-list abstraction

A sentinel s heads the cycle s → l₀ → l₁ → … → s, with previous
pointers mirroring the next pointers. -/

/-- Adjacency in the doubly-linked representation: b follows a. -/
def Adj (h : Heap) (a b : Nat) : Prop :=
  (h a).next = b ∧ (h b).previous = a

instance (h : Heap) : DecidableRel (Adj h) := fun a b =>
  inferInstanceAs (Decidable ((h a).next = b ∧ (h b).previous = a))

/-- The circular list headed by sentinel s holds exactly the objects l,
in order. -/
def circList (h : Heap) (s : Nat) (l : List Nat) : Prop :=
  List.Chain' (Adj h) (s :: l ++ [s])

/-- Executable adjacency and chain checks, used so that concrete
states can be checked by evaluation. -/
def adjB (h : Heap) (a b : Nat) : Bool :=
  ((h a).next == b) && ((h b).previous == a)

def chainB (h : Heap) : List Nat → Bool
  | [] => true
  | [_] => true
  | a :: b :: t => adjB h a b && chainB h (b :: t)

theorem chainB_iff (h : Heap) : ∀ L, chainB h L = true ↔ List.Chain' (Adj h) L
  | [] => by simp [chainB]
  | [a] => by simp [chainB]
  | a :: b :: t => by
    rw [List.chain'_cons, ← chainB_iff h (b :: t)]
    simp [chainB, adjB, Adj]

instance (h : Heap) (s : Nat) (l : List Nat) : Decidable (circList h s l) :=
  decidable_of_iff (chainB h (s :: l ++ [s]) = true) (chainB_iff h _)

/-- Well-formed tracking structure: the generation set holds G, the
root set holds R, and sentinels and members are pairwise distinct. -/
def WfGC (h : Heap) (G R : List Nat) : Prop :=
  circList h genA G ∧ circList h rootA R
    ∧ (rootA :: genA :: (G ++ R)).Nodup

instance (h : Heap) (G R : List Nat) : Decidable (WfGC h G R) :=
  inferInstanceAs (Decidable (circList h genA G ∧ circList h rootA R
    ∧ (rootA :: genA :: (G ++ R)).Nodup))

end Dysl


namespace Dysl

/- ## Pointwise effect of the list primitives -/

theorem updHeap_same (h : Heap) (a : Nat) (o : dy_object) :
    updHeap h a o a = o := by
  simp [updHeap]

theorem updHeap_ne (h : Heap) (a : Nat) (o : dy_object) (x : Nat)
    (hx : x ≠ a) : updHeap h a o x = h x := by
  simp [updHeap, hx]

theorem updNext_read_same (h : Heap) (a v : Nat) :
    (updNext h a v) a = { h a with next := v } :=
  updHeap_same h a _

theorem updNext_read_ne (h : Heap) (a v x : Nat) (hx : x ≠ a) :
    (updNext h a v) x = h x :=
  updHeap_ne h a _ x hx

theorem updPrev_read_same (h : Heap) (a v : Nat) :
    (updPrev h a v) a = { h a with previous := v } :=
  updHeap_same h a _

theorem updPrev_read_ne (h : Heap) (a v x : Nat) (hx : x ≠ a) :
    (updPrev h a v) x = h x :=
  updHeap_ne h a _ x hx

theorem updTag_read_same (h : Heap) (a v : Nat) :
    (updTag h a v) a = { h a with tag := v } :=
  updHeap_same h a _

theorem updTag_read_ne (h : Heap) (a v x : Nat) (hx : x ≠ a) :
    (updTag h a v) x = h x :=
  updHeap_ne h a _ x hx

theorem link_at_obj (h : Heap) (x s sn : Nat) (hxs : x ≠ s)
    (hxsn : x ≠ sn) (hsn : (h s).next = sn) :
    (dObj_link h x s) x = { tag := (h x).tag, previous := s, next := sn } := by
  simp only [dObj_link]
  simp [updNext_read_same, updNext_read_ne, updPrev_read_same,
    updPrev_read_ne, hsn, hxs, hxsn, Ne.symm hxs, Ne.symm hxsn]

theorem link_at_list_ne (h : Heap) (x s sn : Nat) (hxs : x ≠ s)
    (hxsn : x ≠ sn) (hsn : (h s).next = sn) (hss : sn ≠ s) :
    (dObj_link h x s) s = { h s with next := x } := by
  simp only [dObj_link]
  simp [updNext_read_same, updNext_read_ne, updPrev_read_same,
    updPrev_read_ne, hsn, hxs, hxsn, hss, Ne.symm hxs, Ne.symm hxsn,
    Ne.symm hss]

theorem link_at_list_eq (h : Heap) (x s : Nat) (hxs : x ≠ s)
    (hsn : (h s).next = s) :
    (dObj_link h x s) s = { h s with previous := x, next := x } := by
  simp only [dObj_link]
  simp [updNext_read_same, updNext_read_ne, updPrev_read_same,
    updPrev_read_ne, hsn, hxs, Ne.symm hxs]

theorem link_at_sn (h : Heap) (x s sn : Nat) (hxs : x ≠ s)
    (hxsn : x ≠ sn) (hsn : (h s).next = sn) (hss : sn ≠ s) :
    (dObj_link h x s) sn = { h sn with previous := x } := by
  simp only [dObj_link]
  simp [updNext_read_same, updNext_read_ne, updPrev_read_same,
    updPrev_read_ne, hsn, hxs, hxsn, hss, Ne.symm hxs, Ne.symm hxsn,
    Ne.symm hss]

theorem link_frame (h : Heap) (x s y : Nat) (hxs : x ≠ s) (hyx : y ≠ x)
    (hys : y ≠ s) (hysn : y ≠ (h s).next) : (dObj_link h x s) y = h y := by
  simp only [dObj_link]
  simp [updNext_read_same, updNext_read_ne, updPrev_read_same,
    updPrev_read_ne, hxs, hyx, hys, hysn, Ne.symm hxs, Ne.symm hyx,
    Ne.symm hys]

theorem unlink_at_obj (h : Heap) (o p n : Nat) (hp : (h o).previous = p)
    (hn : (h o).next = n) (hop : o ≠ p) (hon : o ≠ n) :
    (dObj_unlink h o) o = { tag := (h o).tag, previous := o, next := o } := by
  simp only [dObj_unlink, dObj_close, hp, hn]
  simp [updNext_read_same, updNext_read_ne, updPrev_read_same,
    updPrev_read_ne, hp, hn, hop, hon, Ne.symm hop, Ne.symm hon]

theorem unlink_at_p (h : Heap) (o p n : Nat) (hp : (h o).previous = p)
    (hn : (h o).next = n) (hop : o ≠ p) (hon : o ≠ n) (hpn : p ≠ n) :
    (dObj_unlink h o) p = { h p with next := n } := by
  simp only [dObj_unlink, dObj_close, hp, hn]
  simp [updNext_read_same, updNext_read_ne, updPrev_read_same,
    updPrev_read_ne, hp, hn, hop, hon, hpn, Ne.symm hop, Ne.symm hon,
    Ne.symm hpn]

theorem unlink_at_n (h : Heap) (o p n : Nat) (hp : (h o).previous = p)
    (hn : (h o).next = n) (hop : o ≠ p) (hon : o ≠ n) (hpn : p ≠ n) :
    (dObj_unlink h o) n = { h n with previous := p } := by
  simp only [dObj_unlink, dObj_close, hp, hn]
  simp [updNext_read_same, updNext_read_ne, updPrev_read_same,
    updPrev_read_ne, hp, hn, hop, hon, hpn, Ne.symm hop, Ne.symm hon,
    Ne.symm hpn]

theorem unlink_at_pn_eq (h : Heap) (o p : Nat) (hp : (h o).previous = p)
    (hn : (h o).next = p) (hop : o ≠ p) :
    (dObj_unlink h o) p = { h p with previous := p, next := p } := by
  simp only [dObj_unlink, dObj_close, hp, hn]
  simp [updNext_read_same, updNext_read_ne, updPrev_read_same,
    updPrev_read_ne, hp, hn, hop, Ne.symm hop]

theorem unlink_frame (h : Heap) (o y : Nat) (hyo : y ≠ o)
    (hyp : y ≠ (h o).previous) (hyn : y ≠ (h o).next)
    (hop : o ≠ (h o).previous) :
    (dObj_unlink h o) y = h y := by
  simp only [dObj_unlink, dObj_close]
  simp [updNext_read_same, updNext_read_ne, updPrev_read_same,
    updPrev_read_ne, hyo, hyp, hyn, hop, Ne.symm hop]

end Dysl

namespace Dysl

/- ## Chain congruence and decomposition helpers -/

theorem mem_cycle {s : Nat} {l : List Nat} {x : Nat}
    (hx : x ∈ s :: l ++ [s]) : x ∈ s :: l := by
  simp only [List.mem_cons, List.mem_append, List.mem_singleton] at hx ⊢
  tauto

/-- A chain of adjacencies only reads the next field of all but the
last node and the previous field of all but the first. -/
theorem chain_adj_congr (h h' : Heap) :
    ∀ (L : List Nat),
      (∀ x ∈ L.dropLast, (h' x).next = (h x).next) →
      (∀ x ∈ L.tail, (h' x).previous = (h x).previous) →
      List.Chain' (Adj h) L → List.Chain' (Adj h') L := by
  intro L
  induction L with
  | nil => intro _ _ _; exact List.chain'_nil
  | cons a t ih =>
    cases t with
    | nil => intro _ _ _; exact List.chain'_singleton a
    | cons b t2 =>
      intro hnext hprev hc
      rw [List.chain'_cons] at hc
      rw [List.chain'_cons]
      refine ⟨⟨?_, ?_⟩, ?_⟩
      · rw [hnext a (by simp)]
        exact hc.1.1
      · rw [hprev b (by simp)]
        exact hc.1.2
      · apply ih
        · intro x hx
          apply hnext
          have hdl : (a :: b :: t2).dropLast = a :: (b :: t2).dropLast := by
            simp
          rw [hdl]
          exact List.mem_cons_of_mem a hx
        · intro x hx
          exact hprev x (List.mem_cons_of_mem b hx)
        · exact hc.2

/-- A circular list is untouched by heap changes outside its nodes. -/
theorem circList_frame (h h' : Heap) (s : Nat) (l : List Nat)
    (hf : ∀ y ∈ s :: l, h' y = h y) (hc : circList h s l) :
    circList h' s l := by
  apply chain_adj_congr h h'
  · intro x hx
    rw [hf x (mem_cycle (List.dropLast_subset _ hx))]
  · intro x hx
    rw [hf x (mem_cycle (List.mem_of_mem_tail hx))]
  · exact hc

theorem circList_nil_fields (h : Heap) (s : Nat) (hc : circList h s []) :
    (h s).next = s ∧ (h s).previous = s := by
  unfold circList at hc
  have hc2 : List.Chain' (Adj h) [s, s] := hc
  exact (List.chain'_cons.mp hc2).1

theorem circList_cons_head (h : Heap) (s a : Nat) (l : List Nat)
    (hc : circList h s (a :: l)) :
    (h s).next = a ∧ (h a).previous = s := by
  unfold circList at hc
  exact (List.chain'_cons.mp hc).1

theorem circList_cons_tail (h : Heap) (s a : Nat) (l : List Nat)
    (hc : circList h s (a :: l)) :
    List.Chain' (Adj h) (a :: l ++ [s]) := by
  unfold circList at hc
  exact hc.tail

theorem ne_getLast_of_mem_dropLast {α : Type} (l : List α) (hnd : l.Nodup)
    (hne : l ≠ []) (x : α) (hx : x ∈ l.dropLast) : x ≠ l.getLast hne := by
  have hsplit := List.dropLast_append_getLast hne
  rw [← hsplit] at hnd
  have hdisj := (List.nodup_append.mp hnd).2.2
  intro hEq
  exact hdisj hx (by rw [hEq]; exact List.mem_singleton.mpr rfl)

theorem head_not_mem_tail {α : Type} (l : List α) (hnd : l.Nodup)
    (hne : l ≠ []) : l.head hne ∉ l.tail := by
  have hsplit := List.head_cons_tail l hne
  rw [← hsplit] at hnd
  exact (List.nodup_cons.mp hnd).1

end Dysl

namespace Dysl

/-- Inserting a fresh closed-or-arbitrary object right after the
sentinel: dObj_link h x s makes x the new front of the list, leaves
its tag alone, and touches no node outside the list and x. -/
theorem link_front (h : Heap) (s x : Nat) (l : List Nat)
    (hc : circList h s l) (hnd : (s :: l).Nodup) (hx : x ∉ s :: l) :
    circList (dObj_link h x s) s (x :: l)
    ∧ ((dObj_link h x s) x).tag = (h x).tag
    ∧ ∀ y, y ∉ x :: s :: l → (dObj_link h x s) y = h y := by
  have hxs : x ≠ s := fun hEq => hx (by rw [hEq]; exact List.mem_cons_self s l)
  cases l with
  | nil =>
    obtain ⟨hn, hp⟩ := circList_nil_fields h s hc
    have hAx := link_at_obj h x s s hxs hxs hn
    have hAs := link_at_list_eq h x s hxs hn
    refine ⟨?_, by rw [hAx], ?_⟩
    · show List.Chain' (Adj (dObj_link h x s)) (s :: [x] ++ [s])
      refine List.chain'_cons.mpr ⟨⟨?_, ?_⟩,
        List.chain'_cons.mpr ⟨⟨?_, ?_⟩, List.chain'_singleton s⟩⟩
      · rw [hAs]
      · rw [hAx]
      · rw [hAx]
      · rw [hAs]
    · intro y hy
      simp only [List.mem_cons, not_or] at hy
      exact link_frame h x s y hxs hy.1 hy.2.1 (by rw [hn]; exact hy.2.1)
  | cons a t =>
    obtain ⟨hsn, hap⟩ := circList_cons_head h s a t hc
    have hs_not : s ∉ a :: t := (List.nodup_cons.mp hnd).1
    have hat_nd : (a :: t).Nodup := (List.nodup_cons.mp hnd).2
    have hant : a ∉ t := (List.nodup_cons.mp hat_nd).1
    have has : a ≠ s := fun hEq => hs_not (by
      rw [← hEq]; exact List.mem_cons_self a t)
    have hxa : x ≠ a := fun hEq => hx (by
      rw [hEq]; exact List.mem_cons_of_mem s (List.mem_cons_self a t))
    have hAx := link_at_obj h x s a hxs hxa hsn
    have hAs := link_at_list_ne h x s a hxs hxa hsn has
    have hAa := link_at_sn h x s a hxs hxa hsn has
    have hxt : x ∉ t := fun hmem => hx
      (List.mem_cons_of_mem s (List.mem_cons_of_mem a hmem))
    have hst : s ∉ t := fun hmem => hs_not (List.mem_cons_of_mem a hmem)
    refine ⟨?_, by rw [hAx], ?_⟩
    · show List.Chain' (Adj (dObj_link h x s)) (s :: (x :: a :: t) ++ [s])
      refine List.chain'_cons.mpr ⟨⟨?_, ?_⟩,
        List.chain'_cons.mpr ⟨⟨?_, ?_⟩, ?_⟩⟩
      · rw [hAs]
      · rw [hAx]
      · rw [hAx]
      · rw [hAa]
      · apply chain_adj_congr h (dObj_link h x s) (a :: t ++ [s])
        · intro y hy
          have hdl : (a :: t ++ [s]).dropLast = a :: t := by
            show ((a :: t) ++ [s]).dropLast = a :: t
            exact List.dropLast_concat
          rw [hdl] at hy
          rcases List.mem_cons.mp hy with hya | hyt
          · rw [hya, hAa]
          · rw [link_frame h x s y hxs (fun hEq => hxt (hEq ▸ hyt))
              (fun hEq => hst (hEq ▸ hyt))
              (by rw [hsn]; exact fun hEq => hant (hEq ▸ hyt))]
        · intro y hy
          have htl : (a :: t ++ [s]).tail = t ++ [s] := rfl
          rw [htl] at hy
          rcases List.mem_append.mp hy with hyt | hys
          · rw [link_frame h x s y hxs (fun hEq => hxt (hEq ▸ hyt))
              (fun hEq => hst (hEq ▸ hyt))
              (by rw [hsn]; exact fun hEq => hant (hEq ▸ hyt))]
          · rw [List.mem_singleton.mp hys, hAs]
        · exact circList_cons_tail h s a t hc
    · intro y hy
      simp only [List.mem_cons, not_or] at hy
      exact link_frame h x s y hxs hy.1 hy.2.1 (by rw [hsn]; exact hy.2.2.1)

end Dysl


namespace Dysl

/-- Unlinking an object from anywhere in a circular list: the list
closes over the gap, the object becomes a closed self-linked
singleton with its tag intact, and no node outside the list is
touched. -/
theorem unlink_mid (h : Heap) (s o : Nat) (l1 l2 : List Nat)
    (hc : circList h s (l1 ++ o :: l2))
    (hnd : (s :: (l1 ++ o :: l2)).Nodup) :
    circList (dObj_unlink h o) s (l1 ++ l2)
    ∧ (dObj_unlink h o) o = { tag := (h o).tag, previous := o, next := o }
    ∧ ∀ y, y ∉ s :: (l1 ++ o :: l2) → (dObj_unlink h o) y = h y := by
  -- distinctness bookkeeping
  have hmem_o : o ∈ l1 ++ o :: l2 :=
    List.mem_append_right l1 (List.mem_cons_self o l2)
  have hs_not : s ∉ l1 ++ o :: l2 := (List.nodup_cons.mp hnd).1
  have hnd2 : (l1 ++ o :: l2).Nodup := (List.nodup_cons.mp hnd).2
  have hos : o ≠ s := fun hEq => hs_not (hEq ▸ hmem_o)
  have h3 := List.nodup_append.mp hnd2
  have hol1 : o ∉ l1 := fun hmem => h3.2.2 hmem (List.mem_cons_self o l2)
  have hol2 : o ∉ l2 := (List.nodup_cons.mp h3.2.1).1
  have hl2nd : l2.Nodup := (List.nodup_cons.mp h3.2.1).2
  have hl1nd : l1.Nodup := h3.1
  have hdisj12 : ∀ y ∈ l1, y ∉ l2 :=
    fun y hy hy2 => h3.2.2 hy (List.mem_cons_of_mem o hy2)
  have hsl1 : s ∉ l1 := fun hy => hs_not (List.mem_append_left _ hy)
  have hsl2 : s ∉ l2 :=
    fun hy => hs_not (List.mem_append_right _ (List.mem_cons_of_mem o hy))
  have ho_not_sl1 : o ∉ s :: l1 := by
    intro hm
    rcases List.mem_cons.mp hm with h1 | h1
    · exact hos h1
    · exact hol1 h1
  have ho_not_l2s : o ∉ l2 ++ [s] := by
    intro hm
    rcases List.mem_append.mp hm with h1 | h1
    · exact hol2 h1
    · exact hos (List.mem_singleton.mp h1)
  -- the two neighbors of o in the cycle
  have hne1 : (s :: l1) ≠ [] := List.cons_ne_nil s l1
  have hne2 : (l2 ++ [s]) ≠ [] := by simp
  set p := (s :: l1).getLast hne1 with hp_def
  set n := (l2 ++ [s]).head hne2 with hn_def
  have hcyc : List.Chain' (Adj h) ((s :: l1) ++ o :: (l2 ++ [s])) := by
    have hEq : (s :: l1) ++ o :: (l2 ++ [s])
        = s :: (l1 ++ o :: l2) ++ [s] := by simp
    rw [hEq]
    exact hc
  have hsplit := List.chain'_split.mp hcyc
  have hAdj_po : Adj h p o := by
    apply (List.chain'_append.mp hsplit.1).2.2
    · rw [List.getLast?_eq_getLast _ hne1]
      rfl
    · rfl
  have hAdj_on : Adj h o n := by
    apply (List.chain'_cons'.mp hsplit.2).1
    rw [List.head?_eq_head hne2]
    rfl
  obtain ⟨hpo_next, hop_prev⟩ := hAdj_po
  obtain ⟨hon_next, hno_prev⟩ := hAdj_on
  have hp_mem : p ∈ s :: l1 := List.getLast_mem hne1
  have hn_mem : n ∈ l2 ++ [s] := List.head_mem hne2
  have hop : o ≠ p := fun hEq => ho_not_sl1 (by rw [hEq]; exact hp_mem)
  have hon : o ≠ n := fun hEq => ho_not_l2s (by rw [hEq]; exact hn_mem)
  have hobj := unlink_at_obj h o p n hop_prev hon_next hop hon
  have hframe : ∀ y, y ≠ o → y ≠ p → y ≠ n → (dObj_unlink h o) y = h y := by
    intro y h1 h2 h3f
    exact unlink_frame h o y h1 (by rw [hop_prev]; exact h2)
      (by rw [hon_next]; exact h3f)
      (by rw [hop_prev]; exact hop)
  have hl1_ne_n : ∀ y ∈ l1, y ≠ n := by
    intro y hy hEq
    rcases List.mem_append.mp hn_mem with h1 | h1
    · exact hdisj12 y hy (by rw [hEq]; exact h1)
    · exact hsl1 (by rw [← (hEq.trans (List.mem_singleton.mp h1))]; exact hy)
  have hl2_ne_p : ∀ y ∈ l2, y ≠ p := by
    intro y hy hEq
    rcases List.mem_cons.mp hp_mem with h1 | h1
    · exact hsl2 (by rw [← (hEq.trans h1)]; exact hy)
    · exact hdisj12 p h1 (by rw [← hEq]; exact hy)
  refine ⟨?_, hobj, ?_⟩
  case refine_2 =>
    intro y hy
    simp only [List.mem_cons, List.mem_append, not_or] at hy
    apply hframe y
    · exact fun hEq => hy.2.2.1 hEq
    · intro hEq
      rcases List.mem_cons.mp hp_mem with h1 | h1
      · exact hy.1 (hEq.trans h1)
      · exact hy.2.1 (by rw [hEq]; exact h1)
    · intro hEq
      rcases List.mem_append.mp hn_mem with h1 | h1
      · exact hy.2.2.2 (by rw [hEq]; exact h1)
      · exact hy.1 (hEq.trans (List.mem_singleton.mp h1))
  case refine_1 =>
    by_cases hpn : p = n
    · -- o is the only member: both neighbors are the sentinel itself
      have hps : p = s := by
        rcases List.mem_cons.mp hp_mem with h1 | h1
        · exact h1
        · exfalso
          rcases List.mem_append.mp hn_mem with h2 | h2
          · exact hdisj12 p h1 (by rw [hpn]; exact h2)
          · exact hsl1 (by
              rw [← (hpn.trans (List.mem_singleton.mp h2))]; exact h1)
      have hl1nil : l1 = [] := by
        cases l1 with
        | nil => rfl
        | cons a t =>
          exfalso
          have hpm : p ∈ a :: t := by
            rw [hp_def, List.getLast_cons (List.cons_ne_nil a t)]
            exact List.getLast_mem (List.cons_ne_nil a t)
          rw [hps] at hpm
          exact hsl1 hpm
      have hl2nil : l2 = [] := by
        cases l2 with
        | nil => rfl
        | cons b t =>
          exfalso
          have hnm : n = b := by rw [hn_def]; rfl
          have hns : n = s := hpn.symm.trans hps
          rw [hns] at hnm
          exact hsl2 (by rw [hnm]; exact List.mem_cons_self b t)
      subst hl1nil hl2nil
      have hsf := unlink_at_pn_eq h o p hop_prev
        (by rw [hon_next, ← hpn]) hop
      rw [hps] at hsf
      show List.Chain' (Adj (dObj_unlink h o)) (s :: [] ++ [s])
      have hfin : List.Chain' (Adj (dObj_unlink h o)) [s, s] := by
        refine List.chain'_cons.mpr ⟨⟨?_, ?_⟩, List.chain'_singleton s⟩
        · rw [hsf]
        · rw [hsf]
      exact hfin
    · -- general case: p keeps the list closed over the gap
      have hP := unlink_at_p h o p n hop_prev hon_next hop hon hpn
      have hN := unlink_at_n h o p n hop_prev hon_next hop hon hpn
      have hsl1_nd : (s :: l1).Nodup := List.nodup_cons.mpr ⟨hsl1, hl1nd⟩
      have hl2s_nd : (l2 ++ [s]).Nodup := by
        rw [List.nodup_append]
        refine ⟨hl2nd, List.nodup_singleton s, ?_⟩
        intro y hy hys
        rw [List.mem_singleton.mp hys] at hy
        exact hsl2 hy
      show List.Chain' (Adj (dObj_unlink h o)) (s :: (l1 ++ l2) ++ [s])
      have hEq2 : s :: (l1 ++ l2) ++ [s] = (s :: l1) ++ (l2 ++ [s]) := by
        simp
      rw [hEq2]
      apply List.chain'_append.mpr
      refine ⟨?_, ?_, ?_⟩
      · -- the prefix chain up to p
        apply chain_adj_congr h (dObj_unlink h o) (s :: l1) ?hnx ?hpv
          (List.chain'_append.mp hsplit.1).1
        case hnx =>
          intro y hy
          have hyp : y ≠ p := ne_getLast_of_mem_dropLast _ hsl1_nd hne1 y hy
          have hymem : y ∈ s :: l1 := List.dropLast_subset _ hy
          have hyo : y ≠ o := fun hEq => ho_not_sl1 (by
            rw [← hEq]; exact hymem)
          by_cases hyn : y = n
          · rw [hyn, hN]
          · rw [hframe y hyo hyp hyn]
        case hpv =>
          intro y hy
          have hytl : y ∈ l1 := hy
          have hyo : y ≠ o := fun hEq => hol1 (hEq ▸ hytl)
          have hyn : y ≠ n := hl1_ne_n y hytl
          by_cases hyp : y = p
          · rw [hyp, hP]
          · rw [hframe y hyo hyp hyn]
      · -- the suffix chain from n onwards
        apply chain_adj_congr h (dObj_unlink h o) (l2 ++ [s]) ?hnx2 ?hpv2
          hsplit.2.tail
        case hnx2 =>
          intro y hy
          have hyl2 : y ∈ l2 := by
            have hdl : (l2 ++ [s]).dropLast = l2 := List.dropLast_concat
            rw [hdl] at hy
            exact hy
          have hyo : y ≠ o := fun hEq => hol2 (hEq ▸ hyl2)
          have hyp : y ≠ p := hl2_ne_p y hyl2
          by_cases hyn : y = n
          · rw [hyn, hN]
          · rw [hframe y hyo hyp hyn]
        case hpv2 =>
          intro y hy
          have hyn : y ≠ n := by
            intro hEq
            apply head_not_mem_tail _ hl2s_nd hne2
            rw [← hn_def, ← hEq]
            exact hy
          have hymem : y ∈ l2 ++ [s] := List.mem_of_mem_tail hy
          have hyo : y ≠ o := fun hEq => ho_not_l2s (by
            rw [← hEq]; exact hymem)
          by_cases hyp : y = p
          · rw [hyp, hP]
          · rw [hframe y hyo hyp hyn]
      · -- the stitched adjacency p → n
        intro a' ha' b' hb'
        rw [List.getLast?_eq_getLast _ hne1] at ha'
        rw [List.head?_eq_head hne2] at hb'
        have ha2 : a' = p := by
          rw [hp_def]
          exact (by simpa using ha' : (s :: l1).getLast hne1 = a').symm
        have hb2 : b' = n := by
          rw [hn_def]
          exact (by simpa using hb' : (l2 ++ [s]).head hne2 = b').symm
        rw [ha2, hb2]
        exact ⟨by rw [hP], by rw [hN]⟩

end Dysl

namespace Dysl

/-- Unpacking a well-formed tracking structure into the facts the
list lemmas consume. -/
theorem wf_parts (h : Heap) (G R : List Nat) (hwf : WfGC h G R) :
    circList h genA G ∧ circList h rootA R
    ∧ (genA :: G).Nodup ∧ (rootA :: R).Nodup
    ∧ (∀ y ∈ genA :: G, y ∉ rootA :: R)
    ∧ (∀ y ∈ rootA :: R, y ∉ genA :: G) := by
  obtain ⟨hcg, hcr, hnd⟩ := hwf
  have h1 : rootA ∉ genA :: (G ++ R) := (List.nodup_cons.mp hnd).1
  have h2 : (genA :: (G ++ R)).Nodup := (List.nodup_cons.mp hnd).2
  have h3 : genA ∉ G ++ R := (List.nodup_cons.mp h2).1
  have h4 : (G ++ R).Nodup := (List.nodup_cons.mp h2).2
  have h5 := List.nodup_append.mp h4
  have hGnd : G.Nodup := h5.1
  have hRnd : R.Nodup := h5.2.1
  have hGR : ∀ y ∈ G, y ∉ R := fun y hy hy2 => h5.2.2 hy hy2
  have hgG : genA ∉ G := fun hmem => h3 (List.mem_append_left _ hmem)
  have hgR : genA ∉ R := fun hmem => h3 (List.mem_append_right _ hmem)
  have hrg : rootA ≠ genA := fun hEq => h1 (by
    rw [hEq]; exact List.mem_cons_self _ _)
  have hrG : rootA ∉ G := fun hmem => h1
    (List.mem_cons_of_mem _ (List.mem_append_left _ hmem))
  have hrR : rootA ∉ R := fun hmem => h1
    (List.mem_cons_of_mem _ (List.mem_append_right _ hmem))
  refine ⟨hcg, hcr, List.nodup_cons.mpr ⟨hgG, hGnd⟩,
    List.nodup_cons.mpr ⟨hrR, hRnd⟩, ?_, ?_⟩
  · intro y hy hy2
    rcases List.mem_cons.mp hy with h6 | h6
    · rcases List.mem_cons.mp hy2 with h7 | h7
      · exact hrg (h7.symm.trans h6)
      · exact hgR (by rw [← h6]; exact h7)
    · rcases List.mem_cons.mp hy2 with h7 | h7
      · exact hrG (by rw [← h7]; exact h6)
      · exact hGR y h6 h7
  · intro y hy hy2
    rcases List.mem_cons.mp hy with h6 | h6
    · rcases List.mem_cons.mp hy2 with h7 | h7
      · exact hrg (h6.symm.trans h7)
      · exact hrG (by rw [← h6]; exact h7)
    · rcases List.mem_cons.mp hy2 with h7 | h7
      · exact hgR (by rw [← h7]; exact h6)
      · exact hGR y h7 h6
/-- Claim C9: unpinning removes the object from all tracking.  For
every well-formed state and every object currently linked in the root
set, after dGC_unroot the object is a closed self-linked singleton
(previous and next point to itself) and is a member of neither the
remaining root set nor the generation set: unrooting does not return
the object to the generation set, so it is invisible to both list
traversals until explicitly re-linked. -/
theorem unroot_removes_from_all_tracking (h : Heap) (G R1 R2 : List Nat)
    (o : Nat) (hwf : WfGC h G (R1 ++ o :: R2)) :
    ((dGC_unroot h o) o).previous = o
    ∧ ((dGC_unroot h o) o).next = o
    ∧ circList (dGC_unroot h o) rootA (R1 ++ R2)
    ∧ circList (dGC_unroot h o) genA G
    ∧ o ∉ R1 ++ R2
    ∧ o ∉ G := by
  obtain ⟨hcg, hcr, hgnd, hrnd, hdisjGR, hdisjRG⟩ :=
    wf_parts h G (R1 ++ o :: R2) hwf
  obtain ⟨hcr2, hobj, hframe⟩ := unlink_mid h rootA o R1 R2 hcr hrnd
  have hmem_o : o ∈ rootA :: (R1 ++ o :: R2) :=
    List.mem_cons_of_mem _
      (List.mem_append_right R1 (List.mem_cons_self o R2))
  have hRnd : (R1 ++ o :: R2).Nodup := (List.nodup_cons.mp hrnd).2
  have h5 := List.nodup_append.mp hRnd
  refine ⟨?_, ?_, hcr2, ?_, ?_, ?_⟩
  · show ((dObj_unlink h o) o).previous = o
    rw [hobj]
  · show ((dObj_unlink h o) o).next = o
    rw [hobj]
  · apply circList_frame h (dGC_unroot h o) genA G ?_ hcg
    intro y hy
    exact hframe y (hdisjGR y hy)
  · intro hmem
    rcases List.mem_append.mp hmem with h6 | h6
    · exact h5.2.2 h6 (List.mem_cons_self o R2)
    · exact (List.nodup_cons.mp h5.2.1).1 h6
  · intro hmem
    exact hdisjGR o (List.mem_cons_of_mem _ hmem) hmem_o

/-- The all-zero heap every concrete example starts from. -/
def baseHeap : Heap := fun _ => { tag := 0, previous := 0, next := 0 }

/-- A heap whose generation set holds exactly the object at address 2
and whose root set is empty. -/
def genOneHeap : Heap :=
  updHeap (updHeap baseHeap genA { tag := 0, previous := 2, next := 2 })
    2 { tag := 0, previous := genA, next := genA }

/-- A heap whose root set holds exactly the object at address 2 and
whose generation set is empty. -/
def rootOneHeap : Heap :=
  updHeap
    (updHeap (updHeap baseHeap rootA { tag := 0, previous := 2, next := 2 })
      genA { tag := 0, previous := genA, next := genA })
    2 { tag := 0, previous := rootA, next := rootA }

theorem unroot_removes_from_all_tracking_witness :
    ((dGC_unroot rootOneHeap 2) 2).previous = 2
    ∧ ((dGC_unroot rootOneHeap 2) 2).next = 2
    ∧ circList (dGC_unroot rootOneHeap 2) rootA ([] ++ [])
    ∧ circList (dGC_unroot rootOneHeap 2) genA []
    ∧ 2 ∉ ([] : List Nat) ++ []
    ∧ 2 ∉ ([] : List Nat) :=
  unroot_removes_from_all_tracking rootOneHeap [] [] [] 2 (by decide)

end Dysl

namespace Dysl

/-- Claim C2 counterexample: dGC_root does NOT unlink first.  On a
state whose generation set holds exactly the object at address 2,
calling dGC_root on that still-linked object leaves the generation
sentinel pointing at the object while the object's previous now
points at the root sentinel: the object is reachable from both
sentinels at once, the generation list's neighbor links dangle, and
the generation list is no longer well-formed with any plausible
contents. -/
theorem dGC_root_on_linked_object_corrupts :
    ((dGC_root genOneHeap 2) genA).next = 2
    ∧ ((dGC_root genOneHeap 2) rootA).next = 2
    ∧ ((dGC_root genOneHeap 2) 2).previous = rootA
    ∧ rootA ≠ genA
    ∧ ¬ circList (dGC_root genOneHeap 2) genA []
    ∧ ¬ circList (dGC_root genOneHeap 2) genA [2] := by
  decide

theorem mem_lift_middle {G1 G2 : List Nat} {o y : Nat}
    (hy : y ∈ G1 ++ G2) : y ∈ G1 ++ o :: G2 := by
  rcases List.mem_append.mp hy with h1 | h1
  · exact List.mem_append_left _ h1
  · exact List.mem_append_right _ (List.mem_cons_of_mem o h1)

/-- Moving an object from one circular list to the front of another:
unlink from its current list, then link after the other sentinel.
This is the unlink-then-relink protocol; it keeps both lists closed
and the object a member of exactly the destination list. -/
theorem move_between_lists (h : Heap) (s1 s2 o : Nat)
    (L1a L1b L2 : List Nat)
    (hc1 : circList h s1 (L1a ++ o :: L1b)) (hc2 : circList h s2 L2)
    (hnd1 : (s1 :: (L1a ++ o :: L1b)).Nodup) (hnd2 : (s2 :: L2).Nodup)
    (hdisj12 : ∀ y ∈ s1 :: (L1a ++ o :: L1b), y ∉ s2 :: L2) :
    circList (dObj_link (dObj_unlink h o) o s2) s1 (L1a ++ L1b)
    ∧ circList (dObj_link (dObj_unlink h o) o s2) s2 (o :: L2)
    ∧ o ∉ L1a ++ L1b := by
  obtain ⟨hc1x, hobj, hframe1⟩ := unlink_mid h s1 o L1a L1b hc1 hnd1
  have hnd0 : (L1a ++ o :: L1b).Nodup := (List.nodup_cons.mp hnd1).2
  have h5 := List.nodup_append.mp hnd0
  have ho_notL1 : o ∉ L1a ++ L1b := by
    intro hmem
    rcases List.mem_append.mp hmem with h6 | h6
    · exact h5.2.2 h6 (List.mem_cons_self o L1b)
    · exact (List.nodup_cons.mp h5.2.1).1 h6
  have hmem_o : o ∈ s1 :: (L1a ++ o :: L1b) :=
    List.mem_cons_of_mem _
      (List.mem_append_right L1a (List.mem_cons_self o L1b))
  have hs1o : s1 ≠ o := by
    intro hEq
    exact (List.nodup_cons.mp hnd1).1 (by
      rw [hEq]
      exact List.mem_append_right L1a (List.mem_cons_self o L1b))
  have hdisj21 : ∀ y ∈ s2 :: L2, y ∉ s1 :: (L1a ++ o :: L1b) :=
    fun y hy hmem => hdisj12 y hmem hy
  have hc2x : circList (dObj_unlink h o) s2 L2 :=
    circList_frame h _ s2 L2 (fun y hy => hframe1 y (hdisj21 y hy)) hc2
  have ho_not2 : o ∉ s2 :: L2 := hdisj12 o hmem_o
  obtain ⟨hc2y, _htag, hframe2⟩ :=
    link_front (dObj_unlink h o) s2 o L2 hc2x hnd2 ho_not2
  have hc1y : circList (dObj_link (dObj_unlink h o) o s2) s1
      (L1a ++ L1b) := by
    apply circList_frame (dObj_unlink h o) _ s1 (L1a ++ L1b) ?_ hc1x
    intro y hy
    apply hframe2 y
    simp only [List.mem_cons, not_or]
    have hy' : y ∈ s1 :: (L1a ++ o :: L1b) := by
      rcases List.mem_cons.mp hy with h6 | h6
      · rw [h6]; exact List.mem_cons_self _ _
      · exact List.mem_cons_of_mem _ (mem_lift_middle h6)
    have hnot2 := hdisj12 y hy'
    simp only [List.mem_cons, not_or] at hnot2
    refine ⟨?_, hnot2.1, hnot2.2⟩
    intro hEq
    rcases List.mem_cons.mp hy with h6 | h6
    · exact hs1o (h6 ▸ hEq)
    · exact ho_notL1 (by rw [← hEq]; exact h6)
  exact ⟨hc1y, hc2y, ho_notL1⟩

theorem wf_nodup_move_out (G1 G2 R : List Nat) (o : Nat)
    (hnd : (rootA :: genA :: ((G1 ++ o :: G2) ++ R)).Nodup) :
    (rootA :: genA :: ((G1 ++ G2) ++ (o :: R))).Nodup := by
  have hperm : ((G1 ++ o :: G2) ++ R).Perm ((G1 ++ G2) ++ (o :: R)) := by
    have e1 : (G1 ++ o :: G2) ++ R = G1 ++ o :: (G2 ++ R) := by simp
    have p1 : ((G1 ++ o :: G2) ++ R).Perm (o :: (G1 ++ (G2 ++ R))) := by
      rw [e1]
      exact List.perm_middle
    have p2 : ((G1 ++ G2) ++ (o :: R)).Perm (o :: ((G1 ++ G2) ++ R)) :=
      List.perm_middle
    have e2 : (G1 ++ G2) ++ R = G1 ++ (G2 ++ R) := by simp
    rw [e2] at p2
    exact p1.trans p2.symm
  exact ((List.Perm.cons rootA (List.Perm.cons genA hperm)).nodup_iff).mp hnd

theorem wf_nodup_move_back (G R : List Nat) (o : Nat)
    (hnd : (rootA :: genA :: (G ++ (o :: R))).Nodup) :
    (rootA :: genA :: ((o :: G) ++ R)).Nodup := by
  have hperm : (G ++ (o :: R)).Perm ((o :: G) ++ R) := by
    have e1 : (o :: G) ++ R = o :: (G ++ R) := rfl
    rw [e1]
    exact List.perm_middle
  exact ((List.Perm.cons rootA (List.Perm.cons genA hperm)).nodup_iff).mp hnd

/-- Claim C2 (amended): the unlink-then-relink protocol does preserve
single membership.  For every well-formed state and every object o
linked in the generation set, performing dObj_unlink and then
dGC_root moves o to the root set: the resulting state is well-formed
with o at the front of the root set and absent from the generation
set, both lists closed with no dangling neighbor links.  (dGC_root
alone performs no unlink, see the counterexample.) -/
theorem unlink_then_root_preserves_single_membership (h : Heap)
    (G1 G2 R : List Nat) (o : Nat) (hwf : WfGC h (G1 ++ o :: G2) R) :
    WfGC (dGC_root (dObj_unlink h o) o) (G1 ++ G2) (o :: R)
    ∧ o ∉ G1 ++ G2 := by
  obtain ⟨hcg, hcr, hgnd, hrnd, hdisjGR, hdisjRG⟩ :=
    wf_parts h (G1 ++ o :: G2) R hwf
  obtain ⟨hg2, hr2, hno⟩ := move_between_lists h genA rootA o G1 G2 R
    hcg hcr hgnd hrnd hdisjGR
  obtain ⟨_, _, hnd⟩ := hwf
  exact ⟨⟨hg2, hr2, wf_nodup_move_out G1 G2 R o hnd⟩, hno⟩

theorem unlink_then_root_preserves_single_membership_witness :
    WfGC (dGC_root (dObj_unlink genOneHeap 2) 2) ([] ++ []) [2]
    ∧ 2 ∉ ([] : List Nat) ++ [] :=
  unlink_then_root_preserves_single_membership genOneHeap [] [] [] 2
    (by decide)

end Dysl

namespace Dysl

/-- One move of the front object of the generation set into the root
set: unlink from the generation list, then dGC_root. -/
def moveOut (h : Heap) : Heap :=
  dGC_root (dObj_unlink h ((h genA).next)) ((h genA).next)

/-- One move of the front object of the root set back into the
generation set: dGC_unroot, then dGC_track. -/
def moveBack (h : Heap) : Heap :=
  dGC_track (dGC_unroot h ((h rootA).next)) ((h rootA).next)

theorem moveOut_wf (h : Heap) (o : Nat) (G R : List Nat)
    (hwf : WfGC h (o :: G) R) : WfGC (moveOut h) G (o :: R) := by
  obtain ⟨hcg, hcr, hgnd, hrnd, hdisjGR, hdisjRG⟩ :=
    wf_parts h (o :: G) R hwf
  have hfront : (h genA).next = o := (circList_cons_head h genA o G hcg).1
  have hc1 : circList h genA ([] ++ o :: G) := hcg
  have hnd1 : (genA :: ([] ++ o :: G)).Nodup := hgnd
  have hdisj : ∀ y ∈ genA :: ([] ++ o :: G), y ∉ rootA :: R := hdisjGR
  obtain ⟨hg2, hr2, _⟩ := move_between_lists h genA rootA o [] G R
    hc1 hcr hnd1 hrnd hdisj
  obtain ⟨_, _, hnd⟩ := hwf
  have hndout : (rootA :: genA :: (G ++ (o :: R))).Nodup := by
    have := wf_nodup_move_out [] G R o (by
      show (rootA :: genA :: (([] ++ o :: G) ++ R)).Nodup
      exact hnd)
    exact this
  show WfGC (dGC_root (dObj_unlink h ((h genA).next)) ((h genA).next))
    G (o :: R)
  rw [hfront]
  exact ⟨hg2, hr2, hndout⟩

theorem moveBack_wf (h : Heap) (o : Nat) (G R : List Nat)
    (hwf : WfGC h G (o :: R)) : WfGC (moveBack h) (o :: G) R := by
  obtain ⟨hcg, hcr, hgnd, hrnd, hdisjGR, hdisjRG⟩ :=
    wf_parts h G (o :: R) hwf
  have hfront : (h rootA).next = o := (circList_cons_head h rootA o R hcr).1
  have hc1 : circList h rootA ([] ++ o :: R) := hcr
  have hnd1 : (rootA :: ([] ++ o :: R)).Nodup := hrnd
  have hdisj : ∀ y ∈ rootA :: ([] ++ o :: R), y ∉ genA :: G := hdisjRG
  obtain ⟨hr2, hg2, _⟩ := move_between_lists h rootA genA o [] R G
    hc1 hcg hnd1 hgnd hdisj
  obtain ⟨_, _, hnd⟩ := hwf
  have hndback : (rootA :: genA :: ((o :: G) ++ R)).Nodup :=
    wf_nodup_move_back G R o hnd
  show WfGC (dGC_track (dGC_unroot h ((h rootA).next)) ((h rootA).next))
    (o :: G) R
  rw [hfront]
  exact ⟨hg2, hr2, hndback⟩

/-- Claim C8: the generation/root round trip is the identity on both
sets.  For every N and every well-formed tracking structure, moving N
objects from the generation set to the root set (unlink from
generation, then dGC_root) and then moving them back (dGC_unroot,
then dGC_track) leaves both the generation set and the root set
exactly as they were: the final state again holds exactly G in the
generation list and exactly R in the root list, in order. -/
theorem generation_root_round_trip (n : Nat) :
    ∀ (h : Heap) (G R : List Nat), WfGC h G R → n ≤ G.length →
      WfGC (moveBack^[n] (moveOut^[n] h)) G R := by
  induction n with
  | zero =>
    intro h G R hwf _
    simpa using hwf
  | succ m ih =>
    intro h G R hwf hn
    cases G with
    | nil => simp at hn
    | cons o G2 =>
      have h1 := moveOut_wf h o G2 R hwf
      have h2 := ih (moveOut h) G2 (o :: R) h1 (by
        simp only [List.length_cons] at hn
        omega)
      have h3 := moveBack_wf (moveBack^[m] (moveOut^[m] (moveOut h)))
        o G2 R h2
      rw [Function.iterate_succ_apply moveOut,
        Function.iterate_succ_apply' moveBack]
      exact h3

theorem generation_root_round_trip_witness :
    WfGC (moveBack^[1] (moveOut^[1] genOneHeap)) [2] [] :=
  generation_root_round_trip 1 genOneHeap [2] [] (by decide) (by decide)

end Dysl

namespace Dysl

theorem dGC_create_failure (gc : dy_gc) (size tag : Nat)
    (hok : gc.alloc.ok gc.alloc.calls = false) :
    dGC_create gc size tag
      = (none, { gc with alloc := { gc.alloc with
          calls := gc.alloc.calls + 1 } }) := by
  simp [dGC_create, dAlloc_alloc, hok]

theorem dGC_create_success (gc : dy_gc) (size tag : Nat)
    (hok : gc.alloc.ok gc.alloc.calls = true) :
    dGC_create gc size tag
      = (some gc.alloc.next,
         { heap := dObj_link (updTag gc.heap gc.alloc.next tag)
             gc.alloc.next genA,
           alloc := { gc.alloc with
             calls := gc.alloc.calls + 1,
             next := gc.alloc.next + 1,
             live := gc.alloc.next :: gc.alloc.live } }) := by
  simp [dGC_create, dAlloc_alloc, hok, dGC_track]

/-- Claim C5: tracked-object creation is atomic in failure.  When the
allocator refuses the request (for instance a zero-capacity test
allocator), dGC_create returns absent and the heap — in particular
both sentinel lists — is exactly as before the call.  When the
allocator succeeds, dGC_create returns the fresh object, stamps the
requested tag on it, links it into the generation set (it becomes the
new front), and leaves the root set untouched. -/
theorem dGC_create_atomic (gc : dy_gc) (size tag : Nat) (G R : List Nat)
    (hwf : WfGC gc.heap G R)
    (hfresh : gc.alloc.next ∉ rootA :: genA :: (G ++ R)) :
    (gc.alloc.ok gc.alloc.calls = false →
      (dGC_create gc size tag).1 = none
      ∧ (dGC_create gc size tag).2.heap = gc.heap)
    ∧ (gc.alloc.ok gc.alloc.calls = true →
      (dGC_create gc size tag).1 = some gc.alloc.next
      ∧ ((dGC_create gc size tag).2.heap gc.alloc.next).tag = tag
      ∧ circList (dGC_create gc size tag).2.heap genA (gc.alloc.next :: G)
      ∧ circList (dGC_create gc size tag).2.heap rootA R) := by
  obtain ⟨hcg, hcr, hgnd, hrnd, hdisjGR, hdisjRG⟩ := wf_parts gc.heap G R hwf
  simp only [List.mem_cons, List.mem_append, not_or] at hfresh
  obtain ⟨hxr, hxg, hxG, hxR⟩ := hfresh
  constructor
  · intro hok
    rw [dGC_create_failure gc size tag hok]
    exact ⟨rfl, rfl⟩
  · intro hok
    rw [dGC_create_success gc size tag hok]
    have hx_not_gen : gc.alloc.next ∉ genA :: G := by
      simp only [List.mem_cons, not_or]
      exact ⟨hxg, hxG⟩
    have hne_rootside : ∀ y ∈ rootA :: R, y ≠ gc.alloc.next := by
      intro y hy hEq
      rcases List.mem_cons.mp hy with h6 | h6
      · exact hxr (hEq.symm.trans h6)
      · exact hxR (hEq ▸ h6)
    have hcg0 : circList (updTag gc.heap gc.alloc.next tag) genA G := by
      apply circList_frame gc.heap _ genA G ?_ hcg
      intro y hy
      apply updTag_read_ne
      intro hEq
      exact hx_not_gen (by rw [← hEq]; exact hy)
    have hcr0 : circList (updTag gc.heap gc.alloc.next tag) rootA R := by
      apply circList_frame gc.heap _ rootA R ?_ hcr
      intro y hy
      exact updTag_read_ne _ _ _ _ (hne_rootside y hy)
    obtain ⟨hcgl, htag, hframe⟩ :=
      link_front (updTag gc.heap gc.alloc.next tag) genA gc.alloc.next G
        hcg0 hgnd hx_not_gen
    refine ⟨rfl, ?_, ?_, ?_⟩
    · show ((dObj_link (updTag gc.heap gc.alloc.next tag)
          gc.alloc.next genA) gc.alloc.next).tag = tag
      rw [htag, updTag_read_same]
    · exact hcgl
    · show circList (dObj_link (updTag gc.heap gc.alloc.next tag)
        gc.alloc.next genA) rootA R
      apply circList_frame (updTag gc.heap gc.alloc.next tag) _ rootA R
        ?_ hcr0
      intro y hy
      apply hframe y
      simp only [List.mem_cons, not_or]
      have hnotg := hdisjRG y hy
      simp only [List.mem_cons, not_or] at hnotg
      exact ⟨hne_rootside y hy, hnotg.1, hnotg.2⟩

/-- A zero-capacity test allocator: every allocation request fails. -/
def zeroCapacityAlloc : dysl_allocator :=
  { ok := fun _ => false, calls := 0, next := 2, live := [] }

def c5gcFail : dy_gc := { heap := dGC_init baseHeap, alloc := zeroCapacityAlloc }

theorem dGC_create_atomic_witness :
    (c5gcFail.alloc.ok c5gcFail.alloc.calls = false →
      (dGC_create c5gcFail 32 7).1 = none
      ∧ (dGC_create c5gcFail 32 7).2.heap = c5gcFail.heap)
    ∧ (c5gcFail.alloc.ok c5gcFail.alloc.calls = true →
      (dGC_create c5gcFail 32 7).1 = some c5gcFail.alloc.next
      ∧ ((dGC_create c5gcFail 32 7).2.heap c5gcFail.alloc.next).tag = 7
      ∧ circList (dGC_create c5gcFail 32 7).2.heap genA
          (c5gcFail.alloc.next :: [])
      ∧ circList (dGC_create c5gcFail 32 7).2.heap rootA []) :=
  dGC_create_atomic c5gcFail 32 7 [] [] (by decide) (by decide)

end Dysl

namespace Dysl

/-- dObj_link overwrites both link fields of the object being inserted,
so closing the object first changes nothing: linking after a close
produces the identical heap, whatever the prior field contents. -/
theorem link_after_close (h : Heap) (x l : Nat) (hxl : x ≠ l) :
    dObj_link (dObj_close h x) x l = dObj_link h x l := by
  have hl : (dObj_close h x) l = h l := by
    show (updPrev (updNext h x x) x x) l = h l
    rw [updPrev_read_ne _ _ _ _ (Ne.symm hxl),
      updNext_read_ne _ _ _ _ (Ne.symm hxl)]
  simp only [dObj_link, hl]
  have hinner1 : (updPrev (updNext (dObj_close h x) x (h l).next) x l) l
      = h l := by
    rw [updPrev_read_ne _ _ _ _ (Ne.symm hxl),
      updNext_read_ne _ _ _ _ (Ne.symm hxl), hl]
  have hinner2 : (updPrev (updNext h x (h l).next) x l) l = h l := by
    rw [updPrev_read_ne _ _ _ _ (Ne.symm hxl),
      updNext_read_ne _ _ _ _ (Ne.symm hxl)]
  rw [hinner1, hinner2]
  funext y
  simp only [dObj_close, updNext, updPrev, updHeap]
  split_ifs <;> rfl

/-- Claim C10: skipping the initialization of the new object's link
fields in dGC_create is sound.  Because dObj_link unconditionally
overwrites both the previous and the next field of the inserted
object, dGC_create produces exactly the same state — result, heap and
allocator — as the variant that calls dObj_close on the object before
linking, for every prior content of those fields (the fresh address
only has to differ from the generation sentinel, as every allocated
address does). -/
theorem create_without_close_is_exact (gc : dy_gc) (size tag : Nat)
    (hne : gc.alloc.next ≠ genA) :
    dGC_create_with_close gc size tag = dGC_create gc size tag := by
  cases hok : gc.alloc.ok gc.alloc.calls with
  | false =>
    simp [dGC_create, dGC_create_with_close, dAlloc_alloc, hok]
  | true =>
    have hl := link_after_close (updTag gc.heap gc.alloc.next tag)
      gc.alloc.next genA hne
    simp [dGC_create, dGC_create_with_close, dAlloc_alloc, hok,
      dGC_track, hl]

theorem create_without_close_is_exact_witness :
    dGC_create_with_close c5gcFail 32 7 = dGC_create c5gcFail 32 7 :=
  create_without_close_is_exact c5gcFail 32 7 (by decide)

end Dysl
